import Mathlib

/-
Verification of the CircularVec crate (src/src/lib.rs): a fixed-length
circular vector with a cursor that wraps around via modulo arithmetic.

The Rust code is embedded shallowly:
  * `Vec<T>` becomes `List T`, `usize` becomes `Nat`.
  * Operations that can panic in Rust (indexing out of bounds, remainder by
    zero) are modelled as `Option`-returning functions where `none` marks the
    panic.
  * `&mut self` methods become state-passing functions returning the new
    container state.
-/

set_option autoImplicit false

universe u

/-- State of `CircularVec<T>`: the backing vector `items` and the cursor
field `index`, exactly the two fields of the Rust struct. -/
structure CircularVec (T : Type u) where
  items : List T
  index : Nat
  deriving Repr, DecidableEq

namespace CircularVec

variable {T : Type u}

/-- Rust `CircularVec::new(items)`: wraps the vector with the cursor at 0. -/
def new (items : List T) : CircularVec T :=
  { items := items, index := 0 }

/-- Rust `CircularVec::increment_index`: `self.index = (self.index + 1) %
self.items.len()`. When `items.len() == 0` the `%` operation panics in Rust
(remainder by zero), modelled here as `none`. -/
def increment_index (cv : CircularVec T) : Option (CircularVec T) :=
  if cv.items.length = 0 then none
  else some { cv with index := (cv.index + 1) % cv.items.length }

/-- Rust `CircularVec::next`: saves `original_index = self.index`, calls
`increment_index`, then returns `&self.items[original_index]`. The slice
indexing panics when `original_index` is out of bounds, modelled via
`getElem?`. Returns the read element together with the new state. -/
def next (cv : CircularVec T) : Option (T × CircularVec T) := do
  let cv' ← cv.increment_index
  let x ← cv'.items[cv.index]?
  pure (x, cv')

/-- Rust `CircularVec::skip(n)`: a countdown loop that calls
`increment_index` while `n > 0`, decrementing `n` each iteration. The
recursion is structural in `n`, which is exactly the loop's termination
argument. -/
def skip (cv : CircularVec T) : Nat → Option (CircularVec T)
  | 0 => some cv
  | Nat.succ n => do
    let cv' ← cv.increment_index
    cv'.skip n

/-- Rust `CircularVec::next_mut`: identical control flow to `next` but
returns `IndexMut::index_mut(&mut *self.items, original_index)`, a mutable
reference into the backing vector. The reference is modelled as the absolute
position it points to (`original_index`), paired with the new state; the
bounds-check panic of `index_mut` is modelled by requiring
`items[original_index]?` to be `some`. -/
def next_mut (cv : CircularVec T) : Option (Nat × CircularVec T) := do
  let cv' ← cv.increment_index
  let _ ← cv'.items[cv.index]?
  pure (cv.index, cv')

/-- Effect of assigning a value `v` through the `&mut T` returned by
`next_mut` when that reference points at absolute position `p`: the backing
vector is updated in place at `p`, the cursor does not move. -/
def write (cv : CircularVec T) (p : Nat) (v : T) : CircularVec T :=
  { cv with items := cv.items.set p v }

/-- Rust `next_mut` followed by an assignment `*r = v` through the returned
reference. -/
def next_mut_write (cv : CircularVec T) (v : T) : Option (CircularVec T) :=
  (cv.next_mut).map (fun r => write r.2 r.1 v)

/-- Rust `FromIterator::from_iter`: starts from `Vec::new()` and pushes each
element of the iterator in order, then calls `Self::new`. The iterator is
modelled as the list of elements it yields, the push loop as a `foldl`. -/
def from_iter (l : List T) : CircularVec T :=
  new (l.foldl (fun acc i => acc ++ [i]) [])

/-- Rust `Index` impl for a single `usize` position: delegates to
`Index::index` on the backing slice, which panics out of bounds; the `&self`
receiver means the cursor cannot change. -/
def index_at (cv : CircularVec T) (i : Nat) : Option T :=
  cv.items[i]?

/-- Rust `Index` impl for a `Range<usize>` argument `a..b`: delegates to
slice range indexing, which panics unless `a ≤ b ∧ b ≤ len`, and otherwise
returns the subslice of positions `a` to `b - 1`. -/
def index_range (cv : CircularVec T) (a b : Nat) : Option (List T) :=
  if a ≤ b ∧ b ≤ cv.items.length then some ((cv.items.drop a).take (b - a))
  else none

/-- State after `k` consecutive `next` calls (panic propagates as `none`). -/
def runNext (cv : CircularVec T) : Nat → Option (CircularVec T)
  | 0 => some cv
  | Nat.succ k => do
    let r ← cv.next
    (r.2).runNext k

/-- Value returned by the `i`-th (0-indexed) `next` call, i.e. the `next`
call made after `i` earlier `next` calls. -/
def nthNext (cv : CircularVec T) (i : Nat) : Option T := do
  let c ← cv.runNext i
  let r ← c.next
  pure r.1

/-- Client-visible operations on a `CircularVec`, used to describe reachable
states: `adv` is a `next` call, `advMut` a `next_mut` call whose reference is
not written through, `advMutWrite v` a `next_mut` call followed by assigning
`v` through the reference, `skipN n` a `skip(n)` call, `readAt i` a
positional `Index` read. -/
inductive Op (T : Type u) where
  | adv : Op T
  | advMut : Op T
  | advMutWrite (v : T) : Op T
  | skipN (n : Nat) : Op T
  | readAt (i : Nat) : Op T
  deriving Repr, DecidableEq

/-- One client operation applied to a container state; `none` is a panic. -/
def step (cv : CircularVec T) : Op T → Option (CircularVec T)
  | Op.adv => (cv.next).map Prod.snd
  | Op.advMut => (cv.next_mut).map Prod.snd
  | Op.advMutWrite v => cv.next_mut_write v
  | Op.skipN n => cv.skip n
  | Op.readAt i => (cv.index_at i).map (fun _ => cv)

/-- Runs a sequence of client operations from a state. -/
def run (cv : CircularVec T) : List (Op T) → Option (CircularVec T)
  | [] => some cv
  | op :: ops => do
    let c ← cv.step op
    c.run ops

/-- True when an operation sequence never writes through a `next_mut`
reference. -/
def writeFree : List (Op T) → Bool
  | [] => true
  | Op.advMutWrite _ :: _ => false
  | _ :: ops => writeFree ops

theorem increment_items {cv c : CircularVec T} (h : cv.increment_index = some c) :
    c.items = cv.items := by
  unfold increment_index at h
  split at h
  · exact absurd h (by simp)
  · cases h; rfl

theorem next_eq (l : List T) (j : Nat) (h : j < l.length) :
    (CircularVec.mk l j).next =
      some (l.get ⟨j, h⟩, CircularVec.mk l ((j + 1) % l.length)) := by
  have hl : ¬ l.length = 0 := by omega
  simp [next, increment_index, hl, List.getElem?_eq_getElem h, List.get_eq_getElem]

theorem next_mut_eq (l : List T) (j : Nat) (h : j < l.length) :
    (CircularVec.mk l j).next_mut =
      some (j, CircularVec.mk l ((j + 1) % l.length)) := by
  have hl : ¬ l.length = 0 := by omega
  simp [next_mut, increment_index, hl, List.getElem?_eq_getElem h]

theorem skip_eq (l : List T) (j : Nat) (h : j < l.length) (n : Nat) :
    (CircularVec.mk l j).skip n = some (CircularVec.mk l ((j + n) % l.length)) := by
  induction n generalizing j with
  | zero => simp [skip, Nat.mod_eq_of_lt h]
  | succ n ih =>
    have hl : ¬ l.length = 0 := by omega
    have h1 : (j + 1) % l.length < l.length := Nat.mod_lt _ (by omega)
    have hj : j + (n + 1) = j + 1 + n := by omega
    rw [hj]
    simp [skip, increment_index, hl, ih _ h1, Nat.mod_add_mod]

theorem runNext_eq (l : List T) (j : Nat) (h : j < l.length) (k : Nat) :
    (CircularVec.mk l j).runNext k = some (CircularVec.mk l ((j + k) % l.length)) := by
  induction k generalizing j with
  | zero => simp [runNext, Nat.mod_eq_of_lt h]
  | succ k ih =>
    have h1 : (j + 1) % l.length < l.length := Nat.mod_lt _ (by omega)
    have hj : j + (k + 1) = j + 1 + k := by omega
    rw [hj]
    simp [runNext, next_eq l j h, ih _ h1, Nat.mod_add_mod]

theorem nthNext_eq (l : List T) (j : Nat) (h : j < l.length) (i : Nat) :
    (CircularVec.mk l j).nthNext i = l[(j + i) % l.length]? := by
  have h1 : (j + i) % l.length < l.length := Nat.mod_lt _ (by omega)
  simp [nthNext, runNext_eq l j h, next_eq l _ h1, List.getElem?_eq_getElem h1,
    List.get_eq_getElem]

theorem foldl_push (l acc : List T) :
    l.foldl (fun a x => a ++ [x]) acc = acc ++ l := by
  induction l generalizing acc with
  | nil => simp
  | cons x xs ih => simp [List.foldl_cons, ih]

theorem from_iter_eq (l : List T) : from_iter l = CircularVec.mk l 0 := by
  simp [from_iter, new, foldl_push]

theorem skip_items {cv c : CircularVec T} {n : Nat} (h : cv.skip n = some c) :
    c.items = cv.items := by
  induction n generalizing cv with
  | zero => cases h; rfl
  | succ n ih =>
    unfold skip at h
    simp only [Option.bind_eq_bind', Option.bind_eq_some'] at h
    obtain ⟨c1, hinc, hrest⟩ := h
    rw [ih hrest, increment_items hinc]

theorem next_items {cv : CircularVec T} {r : T × CircularVec T} (h : cv.next = some r) :
    r.2.items = cv.items := by
  unfold next at h
  simp only [Option.bind_eq_bind', Option.bind_eq_some'] at h
  obtain ⟨c1, hinc, x, hx, hr⟩ := h
  simp only [Option.pure_def, Option.some.injEq] at hr
  rw [← hr]
  exact increment_items hinc

theorem next_mut_items {cv : CircularVec T} {r : Nat × CircularVec T}
    (h : cv.next_mut = some r) : r.2.items = cv.items := by
  unfold next_mut at h
  simp only [Option.bind_eq_bind', Option.bind_eq_some'] at h
  obtain ⟨c1, hinc, x, hx, hr⟩ := h
  simp only [Option.pure_def, Option.some.injEq] at hr
  rw [← hr]
  exact increment_items hinc

theorem step_inv {cv c : CircularVec T} {op : Op T} (h : cv.index < cv.items.length)
    (hs : cv.step op = some c) : c.index < c.items.length := by
  obtain ⟨l, j⟩ := cv
  cases op with
  | adv =>
    simp only [step, next_eq l j h, Option.map_some'] at hs
    cases hs
    exact Nat.mod_lt _ (by simp_all; omega)
  | advMut =>
    simp only [step, next_mut_eq l j h, Option.map_some'] at hs
    cases hs
    exact Nat.mod_lt _ (by simp_all; omega)
  | advMutWrite v =>
    simp only [step, next_mut_write, next_mut_eq l j h, Option.map_some'] at hs
    cases hs
    simp only [write, List.length_set]
    exact Nat.mod_lt _ (by simp_all; omega)
  | skipN n =>
    simp only [step, skip_eq l j h n] at hs
    cases hs
    exact Nat.mod_lt _ (by simp_all; omega)
  | readAt i =>
    simp only [step, index_at] at hs
    cases hx : (l[i]? : Option T) with
    | none => rw [hx] at hs; exact absurd hs (by simp)
    | some x => rw [hx] at hs; cases hs; exact h

theorem run_inv {cv c : CircularVec T} {ops : List (Op T)} (h : cv.index < cv.items.length)
    (hr : cv.run ops = some c) : c.index < c.items.length := by
  induction ops generalizing cv with
  | nil => cases hr; exact h
  | cons op ops ih =>
    unfold run at hr
    simp only [Option.bind_eq_bind', Option.bind_eq_some'] at hr
    obtain ⟨c1, hstep, hrest⟩ := hr
    exact ih (step_inv h hstep) hrest

theorem run_items {cv c : CircularVec T} {ops : List (Op T)}
    (hw : writeFree ops = true) (hr : cv.run ops = some c) : c.items = cv.items := by
  induction ops generalizing cv with
  | nil => cases hr; rfl
  | cons op ops ih =>
    unfold run at hr
    simp only [Option.bind_eq_bind', Option.bind_eq_some'] at hr
    obtain ⟨c1, hstep, hrest⟩ := hr
    have hitems : c1.items = cv.items := by
      cases op with
      | adv =>
        simp only [step, Option.map_eq_some'] at hstep
        obtain ⟨r, hnext, hc1⟩ := hstep
        rw [← hc1]; exact next_items hnext
      | advMut =>
        simp only [step, Option.map_eq_some'] at hstep
        obtain ⟨r, hnext, hc1⟩ := hstep
        rw [← hc1]; exact next_mut_items hnext
      | advMutWrite v => simp [writeFree] at hw
      | skipN n => exact skip_items hstep
      | readAt i =>
        simp only [step, Option.map_eq_some'] at hstep
        obtain ⟨x, hx, hc1⟩ := hstep
        rw [← hc1]
    have hw2 : writeFree ops = true := by
      cases op <;> simp_all [writeFree]
    rw [ih hw2 hrest, hitems]

/-- C1: wrap-around correctness. For a container built (via the
`FromIterator` entry point) from a non-empty sequence `l = [e0, ..., e(n-1)]`,
the `i`-th (0-indexed) advance-and-read (`next`) call returns element
`e(i % n)`. -/
theorem wrap_around_correct (l : List T) (hl : l ≠ []) (i : Nat) :
    (from_iter l).nthNext i = l[i % l.length]? := by
  have h0 : 0 < l.length := List.length_pos.mpr hl
  rw [from_iter_eq, nthNext_eq l 0 h0 i]
  simp

/-- Witness for C1: on the container built from [50, 60, 70, 80], the 5th
(0-indexed) next call returns the element at position 5 % 4 = 1. -/
theorem wrap_around_correct_witness :
    (from_iter [50, 60, 70, 80] : CircularVec Nat).nthNext 5 = [50, 60, 70, 80][5 % 4]? :=
  wrap_around_correct [50, 60, 70, 80] (by decide) 5

/-- C2 (code bug evidence): `from_iter` accepts an empty source without any
error — it silently builds the length-0 container `mk [] 0` — and on that
container advance-and-read faults (`next` and `next_mut` both panic in Rust
with remainder-by-zero inside `increment_index`, modelled as `none`). The
code therefore takes neither of the two policies the claim allows. -/
theorem empty_construction_faults :
    from_iter ([] : List Nat) = CircularVec.mk [] 0 ∧
    (from_iter ([] : List Nat)).next = none ∧
    (from_iter ([] : List Nat)).next_mut = none :=
  ⟨rfl, rfl, rfl⟩

/-- Counterexample for C3 as stated: the construction entry point also yields
the empty container, and on it `next` and `next_mut` fault rather than
returning an element. -/
theorem advance_total_cex :
    (from_iter ([] : List Bool)).next = none ∧
    (from_iter ([] : List Bool)).next_mut = none :=
  ⟨rfl, rfl⟩

/-- C3 (amended): for every container obtained from construction on a
NON-EMPTY source, in every state reachable by any sequence of client
operations, `next` and `next_mut` always succeed and yield a result. -/
theorem advance_total_nonempty (l : List T) (ops : List (Op T)) (cv : CircularVec T)
    (hl : l ≠ []) (hr : (from_iter l).run ops = some cv) :
    (∃ r, cv.next = some r) ∧ (∃ r, cv.next_mut = some r) := by
  have h0 : (from_iter l).index < (from_iter l).items.length := by
    simpa [from_iter_eq] using List.length_pos.mpr hl
  have hinv := run_inv h0 hr
  obtain ⟨m, j⟩ := cv
  exact ⟨⟨_, next_eq m j hinv⟩, ⟨_, next_mut_eq m j hinv⟩⟩

/-- Witness for C3 (amended), on the container built from [1, 2] after the
operation sequence [next, skip 3]. -/
theorem advance_total_nonempty_witness :
    (∃ r, (CircularVec.mk ([1, 2] : List Nat) 0).next = some r) ∧
    (∃ r, (CircularVec.mk ([1, 2] : List Nat) 0).next_mut = some r) :=
  advance_total_nonempty [1, 2] [Op.adv, Op.skipN 3] (CircularVec.mk [1, 2] 0)
    (by decide) (by decide)

/-- C4: skip equivalence. For every non-empty container in a reachable state
(characterised by the cursor invariant index < length, cf. C5) and every n,
`skip n` followed by advance-and-read returns the same element as making
n + 1 advance-and-read calls in a row and taking the last result (`nthNext`
at position n is exactly that last result). -/
theorem skip_next_equivalence (cv : CircularVec T) (n : Nat)
    (h : cv.index < cv.items.length) :
    ((cv.skip n).bind (fun c => (c.next).map Prod.fst)) = cv.nthNext n := by
  obtain ⟨l, j⟩ := cv
  have h1 : (j + n) % l.length < l.length := Nat.mod_lt _ (by simp_all; omega)
  rw [skip_eq l j h n, nthNext_eq l j h n]
  simp [next_eq l _ h1, List.getElem?_eq_getElem h1, List.get_eq_getElem]

/-- Witness for C4: on [50, 60, 70, 80] with cursor 0 and n = 2, skip then
next agrees with the last of three next calls (both yield 70). -/
theorem skip_next_equivalence_witness :
    (((CircularVec.mk ([50, 60, 70, 80] : List Nat) 0).skip 2).bind
      (fun c => (c.next).map Prod.fst)) =
      (CircularVec.mk ([50, 60, 70, 80] : List Nat) 0).nthNext 2 :=
  skip_next_equivalence (CircularVec.mk [50, 60, 70, 80] 0) 2 (by decide)

/-- C5: cursor invariant. For every container built from a non-empty source,
0 ≤ cursor < length(items) holds in the initial state (take ops = []) and in
every state reached by any sequence of next / next_mut / write-through /
skip / positional-index operations. The lower bound is inherent in the Nat
type of the cursor. -/
theorem cursor_invariant_reachable (l : List T) (ops : List (Op T)) (cv : CircularVec T)
    (hl : l ≠ []) (hr : (from_iter l).run ops = some cv) :
    cv.index < cv.items.length := by
  have h0 : (from_iter l).index < (from_iter l).items.length := by
    simpa [from_iter_eq] using List.length_pos.mpr hl
  exact run_inv h0 hr

/-- Witness for C5: the state reached from [1, 2] by [next, write 7 through
next_mut, skip 2] is mk [1, 7] 0, and its cursor is within bounds. -/
theorem cursor_invariant_reachable_witness :
    (CircularVec.mk ([1, 7] : List Nat) 0).index <
      (CircularVec.mk ([1, 7] : List Nat) 0).items.length :=
  cursor_invariant_reachable [1, 2] [Op.adv, Op.advMutWrite 7, Op.skipN 2]
    (CircularVec.mk [1, 7] 0 : CircularVec Nat) (by decide) (by decide)

/-- C6: indexing independence. After any sequence of cursor-moving operations
with no write through a next_mut reference, positional indexing still returns
the element originally placed at that absolute position, and a positional
read never changes the container state (the Rust impl takes &self, modelled
by `step` returning the state unchanged). -/
theorem indexing_independence (l : List T) (ops : List (Op T)) (cv : CircularVec T)
    (hw : writeFree ops = true) (hr : (from_iter l).run ops = some cv) :
    (∀ i, cv.index_at i = l[i]?) ∧
    (∀ i c, cv.step (Op.readAt i) = some c → c = cv) := by
  have hitems : cv.items = l := by rw [run_items hw hr, from_iter_eq]
  constructor
  · intro i
    rw [index_at, hitems]
  · intro i c hs
    simp only [step, Option.map_eq_some'] at hs
    obtain ⟨x, hx, hc⟩ := hs
    exact hc.symm

/-- Witness for C6: after [next, skip 2] on the container built from
[5, 6, 7], positional index 1 still returns the original element 6. -/
theorem indexing_independence_witness :
    (CircularVec.mk ([5, 6, 7] : List Nat) 0).index_at 1 = [5, 6, 7][1]? :=
  (indexing_independence [5, 6, 7] [Op.adv, Op.skipN 2] (CircularVec.mk [5, 6, 7] 0)
    (by decide) (by decide)).1 1

/-- C7: positional-index error condition. Single-position indexing faults iff
the position is outside [0, length), and for an in-bounds position returns
the element at that absolute position; range indexing a..b follows Rust
fixed-size-array/slice semantics: it faults iff not (a ≤ b ∧ b ≤ length),
and for a valid range returns exactly the b - a elements at absolute
positions a, a+1, ..., b-1. -/
theorem positional_index_error_iff (cv : CircularVec T) (i a b : Nat) :
    (cv.index_at i = none ↔ ¬ i < cv.items.length) ∧
    (∀ h : i < cv.items.length, cv.index_at i = some (cv.items.get ⟨i, h⟩)) ∧
    (cv.index_range a b = none ↔ ¬ (a ≤ b ∧ b ≤ cv.items.length)) ∧
    (∀ hab : a ≤ b ∧ b ≤ cv.items.length, ∃ s : List T,
      cv.index_range a b = some s ∧ s.length = b - a ∧
      ∀ k, k < b - a → s[k]? = cv.items[a + k]?) := by
  refine ⟨?_, ?_, ?_, ?_⟩
  · rw [index_at, List.getElem?_eq_none_iff]
    omega
  · intro h
    rw [index_at, List.getElem?_eq_getElem h, List.get_eq_getElem]
  · unfold index_range
    split <;> simp_all
  · intro hab
    refine ⟨(cv.items.drop a).take (b - a), ?_, ?_, ?_⟩
    · unfold index_range
      split <;> simp_all
    · rw [List.length_take, List.length_drop]
      omega
    · intro k hk
      rw [List.getElem?_take, if_pos hk, List.getElem?_drop]

/-- Witness for C7: on [50, 60, 70, 80], position 2 is in bounds so indexing
it does not fault. -/
theorem positional_index_error_iff_witness :
    ((CircularVec.mk ([50, 60, 70, 80] : List Nat) 0).index_at 2 = none ↔
      ¬ 2 < (CircularVec.mk ([50, 60, 70, 80] : List Nat) 0).items.length) :=
  (positional_index_error_iff (CircularVec.mk [50, 60, 70, 80] 0) 2 1 3).1

/-- C8: skip transition semantics and termination. For every container whose
cursor is in bounds (so in particular non-empty), skip n terminates with a
result (the countdown recursion is structural in n) and leaves the state
with the same items and the cursor at (cursor + n) % length; skip 0 is a
no-op returning the state unchanged. -/
theorem skip_semantics (cv : CircularVec T) (n : Nat) (h : cv.index < cv.items.length) :
    cv.skip n = some (CircularVec.mk cv.items ((cv.index + n) % cv.items.length)) ∧
    cv.skip 0 = some cv := by
  obtain ⟨l, j⟩ := cv
  exact ⟨skip_eq l j h n, rfl⟩

/-- Witness for C8: on [50, 60, 70, 80] with cursor 3, skip 6 lands on
(3 + 6) % 4 = 1 and skip 0 changes nothing. -/
theorem skip_semantics_witness :
    (CircularVec.mk ([50, 60, 70, 80] : List Nat) 3).skip 6 =
      some (CircularVec.mk ([50, 60, 70, 80] : List Nat) ((3 + 6) % 4)) ∧
    (CircularVec.mk ([50, 60, 70, 80] : List Nat) 3).skip 0 =
      some (CircularVec.mk ([50, 60, 70, 80] : List Nat) 3) :=
  skip_semantics (CircularVec.mk [50, 60, 70, 80] 3) 6 (by decide)

/-- C9: mutable/immutable accessor equivalence. next_mut succeeds exactly
when next does, addresses exactly the position next reads from (the cursor
value before the call), and advances the cursor to the identical new state;
conversely next is fully determined by next_mut: it returns the element
stored at the position next_mut addresses, with the same new state. Proved
for every container state, empty ones included (both fault together). -/
theorem next_mut_equiv_next (cv : CircularVec T) :
    cv.next_mut = (cv.next).map (fun r => (cv.index, r.2)) ∧
    cv.next = (cv.next_mut).bind
      (fun pc => (cv.items[pc.1]?).map (fun x => (x, pc.2))) := by
  obtain ⟨l, j⟩ := cv
  by_cases hl : l.length = 0
  · simp [next, next_mut, increment_index, hl]
  · cases hx : (l[j]? : Option T) with
    | none => simp [next, next_mut, increment_index, hl, hx]
    | some x => simp [next, next_mut, increment_index, hl, hx]

/-- C10: mutation persistence. Writing v through the reference returned by
next_mut (which addresses absolute position p = cursor) succeeds, keeps the
length unchanged, leaves every other absolute position's element unchanged
(order preserved), makes positional indexing at p observe v, and makes the
subsequent advance-and-read call that lands on p again (after length - 1
further calls) observe v. -/
theorem mutation_persistence (cv : CircularVec T) (v : T) (h : cv.index < cv.items.length) :
    ∃ cv', cv.next_mut_write v = some cv' ∧
      cv'.items.length = cv.items.length ∧
      cv'.index_at cv.index = some v ∧
      (∀ j, j ≠ cv.index → cv'.index_at j = cv.index_at j) ∧
      cv'.nthNext (cv.items.length - 1) = some v := by
  obtain ⟨l, j⟩ := cv
  simp only at h
  have hl : 0 < l.length := by omega
  refine ⟨CircularVec.mk (l.set j v) ((j + 1) % l.length), ?_, ?_, ?_, ?_, ?_⟩
  · simp [next_mut_write, next_mut_eq l j h, write]
  · simp [List.length_set]
  · simp only [index_at]
    rw [List.getElem?_set_self]
    simp [h]
  · intro i hi
    simp only [index_at]
    rw [List.getElem?_set_ne (fun hji => hi hji.symm)]
  · have hlen : (l.set j v).length = l.length := List.length_set l j v
    have h1 : (j + 1) % l.length < (l.set j v).length := by
      rw [hlen]; exact Nat.mod_lt _ hl
    simp only [nthNext_eq (l.set j v) _ h1, hlen]
    have hmod : ((j + 1) % l.length + (l.length - 1)) % l.length = j := by
      rw [Nat.mod_add_mod]
      have h2 : j + 1 + (l.length - 1) = j + l.length := by omega
      rw [h2, Nat.add_mod_right, Nat.mod_eq_of_lt h]
    rw [hmod, List.getElem?_set_self]
    simp [h]

/-- Witness for C10: on [50, 60, 70, 80] with cursor 1, writing 99 through
next_mut gives [50, 99, 70, 80]; position 1 then reads 99, other positions
are unchanged, and the next call landing on position 1 (after 3 more calls)
returns 99. -/
theorem mutation_persistence_witness :
    ∃ cv', (CircularVec.mk ([50, 60, 70, 80] : List Nat) 1).next_mut_write 99 = some cv' ∧
      cv'.items.length = (CircularVec.mk ([50, 60, 70, 80] : List Nat) 1).items.length ∧
      cv'.index_at 1 = some 99 ∧
      (∀ j, j ≠ 1 → cv'.index_at j = (CircularVec.mk ([50, 60, 70, 80] : List Nat) 1).index_at j) ∧
      cv'.nthNext 3 = some 99 :=
  mutation_persistence (CircularVec.mk [50, 60, 70, 80] 1) 99 (by decide)

end CircularVec
